import Mathlib

/-!
Shallow embedding of `mv3_wgui.py` (pskugit/video_converter).

The conversion core consists of `Worker.images` (video → image folder,
source lines 27-70), `Worker.video` (image list → video file, source
lines 73-110) and `MainWindow.update_config` (lines 182-191).

Modelling conventions:
* an input image file is its `imread` result: `Option Image` (`none` when
  `cv2.imread` returns `None`, i.e. the file is unreadable), where an
  `Image` is abstracted to its pixel dimensions;
* a video source is its metadata (`length` from `CAP_PROP_FRAME_COUNT`
  after `int(...)`, `fps` from `CAP_PROP_FPS`) together with the number of
  frames `cap.read()` successfully yields before returning `ret = False`;
* Python float arithmetic in `int(100 * (a / b))` is idealised to exact
  rational arithmetic: `int(...)` truncates toward zero, so the emitted
  value is `Int.tdiv (100 * a) b`;
* the observable behaviour of a run is a trace of `Event`s (progress
  emissions, the `release()` call on the media handle, the `finished`
  emission from the `finally` block) plus the written artifacts and the
  exception caught by the `except` block, if any.
-/

namespace VideoConverter

/-- Image decoded by `cv2.imread`, abstracted to its pixel dimensions
(`shape` is `(height, width, channels)`, so `shape[1::-1] = (width, height)`). -/
structure Image where
  width : Nat
  height : Nat
deriving DecidableEq, Repr

/-- The configuration dictionary `self.config` (source lines 118-123):
`max_length` (int), `size` (pair of ints), `repeatframe` (int), `fps` (float,
idealised as a rational). -/
structure Config where
  max_length : Int
  size : Int × Int
  repeatframe : Int
  fps : ℚ
deriving DecidableEq, Repr

/-- Observable events of a worker run: `progress.emit(v)`, the `release()`
call on the media handle (capture or writer), and `finished.emit()`. -/
inductive Event where
  | progress (v : Int)
  | released
  | finished
deriving DecidableEq, Repr

/-- Values carried by the progress events of a trace, in emission order. -/
def progressValues (es : List Event) : List Int :=
  es.filterMap fun e =>
    match e with
    | .progress v => some v
    | _ => none

/-- Python `int(100 * (a / b))` under the exact-rational idealisation of
float division: truncation toward zero of the exact quotient. -/
def pyTrunc (num den : Int) : Int :=
  Int.tdiv num den

/-- Python slice `l[:n]`: a nonnegative bound takes the first `n` elements
(clamped to the length); a negative bound drops the last `-n` elements. -/
def pySliceTo {α : Type} (l : List α) (n : Int) : List α :=
  if n < 0 then l.take ((l.length : Int) + n).toNat else l.take n.toNat

/-- Python `str(i).zfill(w)` for the nonnegative frame indices used by the
decoder: left-pad the decimal representation with zeros up to width `w`. -/
def zfill (w : Nat) (s : String) : String :=
  if s.length ≥ w then s else String.mk (List.replicate (w - s.length) '0') ++ s

/-- Boolean test that a list of integers is monotonically non-decreasing. -/
def nondecreasing : List Int → Bool
  | [] => true
  | [_] => true
  | a :: b :: rest => if a ≤ b then nondecreasing (b :: rest) else false

/-- Number of readable images (`imread` returned a frame) in a list. -/
def readableCount (l : List (Option Image)) : Nat :=
  l.countP fun o => o.isSome

/-! ## Decoder: `Worker.images` (source lines 27-70) -/

/-- Result of a `Worker.images` run: the event trace, the image files
written (file names, in write order), whether the folder-creation step
(lines 41-50) was reached, and the exception caught at line 67, if any. -/
structure DecodeResult where
  events : List Event
  files : List String
  dirCreated : Bool
  error : Option String
deriving DecidableEq, Repr

/-- Frame-extraction loop of `Worker.images` (lines 57-64): `n` is the
number of successful `cap.read()` calls still to come, `i` the 1-based
frame counter. Each successful read writes `str(i).zfill(width) + ".png"`
and emits `int(100 * (i / length))`. Returns (files, events). -/
def imagesLoop (w : Nat) (length : Int) : Nat → Nat → List String × List Event
  | 0, _ => ([], [])
  | n + 1, i =>
    let r := imagesLoop w length n (i + 1)
    ((zfill w (toString i) ++ ".png") :: r.1,
     .progress (pyTrunc (100 * (i : Int)) length) :: r.2)

/-- The decoder `Worker.images`: `length` and `fps` are the source metadata,
`numFrames` the number of frames the capture actually yields. Lines 35-36
raise `ValueError("Invalid video file.")` when `length == 0 or fps == 0`
(caught at line 67; `cap.release()` at line 66 is then never executed, but
`finished` still fires from the `finally` block). Otherwise the folder is
created (or reused), the loop runs, the capture is released and `finished`
fires. -/
def Worker.images (length : Int) (fps : ℚ) (numFrames : Nat) : DecodeResult :=
  if length = 0 ∨ fps = 0 then
    { events := [.finished], files := [], dirCreated := false,
      error := some "Invalid video file." }
  else
    let w := (toString length).length
    let r := imagesLoop w length numFrames 1
    { events := r.2 ++ [.released, .finished], files := r.1,
      dirCreated := true, error := none }

/-! ## Encoder: `Worker.video` (source lines 73-110) -/

/-- Result of a `Worker.video` run: the event trace, the dimensions of each
frame written to the `VideoWriter` (in write order), the `size` passed to
the `VideoWriter` constructor (when reached), and the exception caught at
line 107, if any. -/
structure EncodeResult where
  events : List Event
  written : List (Int × Int)
  writerSize : Option (Int × Int)
  error : Option String
deriving DecidableEq, Repr

/-- Line 80: `max_length = self.config["max_length"] or len(self.filenames)`
(`0` is falsy, any other int is kept verbatim). -/
def encMaxLength (imgs : List (Option Image)) (cfg : Config) : Int :=
  if cfg.max_length = 0 then (imgs.length : Int) else cfg.max_length

/-- Lines 88-89: if the configured size is `(0, 0)`, read the first listed
image and use `shape[1::-1]`. `filenames[0]` on an empty list raises
`IndexError`; `None.shape` when the first image is unreadable raises
`AttributeError` (both are fatal: caught only by the outer handler). -/
def resolveSize (imgs : List (Option Image)) (cfg : Config) :
    Except String (Int × Int) :=
  if cfg.size = (0, 0) then
    match imgs.head? with
    | none => .error "IndexError: list index out of range"
    | some none => .error "AttributeError: NoneType object has no attribute shape"
    | some (some im) => .ok ((im.width : Int), (im.height : Int))
  else .ok cfg.size

/-- Encoding loop of `Worker.video` (lines 95-103), over the slice
`filenames[:max_length]` with 0-based `idx`. An unreadable image is
skipped by `continue` (no write and, importantly, no progress emission);
a readable image is stretch-resized to `size`, written `repeatframe`
times (`range` of a non-positive int is empty), and then
`int(100 * ((idx + 1) / max_length))` is emitted.
Returns (written frame dimensions, events). -/
def videoLoop (m : Int) (size : Int × Int) (rf : Int) :
    List (Option Image) → Nat → List (Int × Int) × List Event
  | [], _ => ([], [])
  | none :: rest, idx => videoLoop m size rf rest (idx + 1)
  | some _ :: rest, idx =>
    let r := videoLoop m size rf rest (idx + 1)
    (List.replicate rf.toNat size ++ r.1,
     .progress (pyTrunc (100 * ((idx : Int) + 1)) m) :: r.2)

/-- The encoder `Worker.video`: `imgs` is the ordered `imread` result of
`self.filenames`. Resolves `max_length` (line 80) and `size` (lines 88-89);
a size-resolution exception aborts the run before the `VideoWriter` is
created (only `finished` fires, no release). Otherwise the writer is
created with `size`, the loop consumes `filenames[:max_length]`, the
writer is released (line 105) and `finished` fires. -/
def Worker.video (imgs : List (Option Image)) (cfg : Config) : EncodeResult :=
  let m := encMaxLength imgs cfg
  match resolveSize imgs cfg with
  | .error e =>
    { events := [.finished], written := [], writerSize := none, error := some e }
  | .ok size =>
    let r := videoLoop m size cfg.repeatframe (pySliceTo imgs m) 0
    { events := r.2 ++ [.released, .finished], written := r.1,
      writerSize := some size, error := none }

/-! ## Configuration update: `MainWindow.update_config` (source lines 182-191) -/

/-- Decimal digit run parsed as a natural number (`none` when empty or a
non-digit occurs). -/
def digitsToNat? (l : List Char) : Option Nat :=
  if l ≠ [] ∧ l.all Char.isDigit then
    some (l.foldl (fun acc c => acc * 10 + (c.toNat - '0'.toNat)) 0)
  else none

/-- Model of Python `int(text)`: an optional sign followed by one or more
decimal digits (whitespace tolerance and underscore separators are not
modelled); raises `ValueError` (here: `none`) otherwise. -/
def pyInt? (s : String) : Option Int :=
  match s.toList with
  | '-' :: rest => (digitsToNat? rest).map fun n => -(n : Int)
  | '+' :: rest => (digitsToNat? rest).map fun n => (n : Int)
  | l => (digitsToNat? l).map fun n => (n : Int)

/-- Model of Python `float(text)` restricted to plain decimal notation: an
optional sign, digits, optionally a point and fractional digits; `none`
on malformed input (raises `ValueError`). -/
def pyFloat? (s : String) : Option ℚ :=
  let core : List Char → Option ℚ := fun t =>
    match t.span Char.isDigit with
    | (ip, []) => (digitsToNat? ip).map fun n => (n : ℚ)
    | (ip, '.' :: fp) =>
      if (ip ≠ [] ∨ fp ≠ []) ∧ fp.all Char.isDigit then
        some ((ip.foldl (fun a c => a * 10 + (c.toNat - '0'.toNat)) 0 : ℚ) +
          (fp.foldl (fun a c => a * 10 + (c.toNat - '0'.toNat)) 0 : ℚ) / (10 : ℚ) ^ fp.length)
      else none
    | _ => none
  match s.toList with
  | '-' :: rest => (core rest).map fun q => -q
  | '+' :: rest => core rest
  | l => core l

/-- `MainWindow.update_config` (lines 182-191): the new dictionary literal
evaluates all five field parses; if any raises `ValueError` the assignment
to `self.config` never happens and the previous configuration is kept
whole. -/
def update_config (cfg : Config) (mlT s1T s2T rfT fpsT : String) : Config :=
  match pyInt? mlT, pyInt? s1T, pyInt? s2T, pyInt? rfT, pyFloat? fpsT with
  | some ml, some s1, some s2, some rf, some fps =>
    { max_length := ml, size := (s1, s2), repeatframe := rf, fps := fps }
  | _, _, _, _, _ => cfg

/-! ## Helper lemmas -/

/-- Progress extraction distributes over trace concatenation. -/
theorem progressValues_append (es es' : List Event) :
    progressValues (es ++ es') = progressValues es ++ progressValues es' := by
  simp [progressValues, List.filterMap_append]

/-- The `release`/`finished` tail of a normal run carries no progress values. -/
theorem progressValues_tail (es : List Event) :
    progressValues (es ++ [Event.released, Event.finished]) = progressValues es := by
  simp [progressValues, List.filterMap_append]

/-- Truncating division by a positive denominator is monotone on nonnegative
numerators. -/
theorem pyTrunc_mono {m a b : Int} (hm : 0 < m) (ha : 0 ≤ a) (hab : a ≤ b) :
    pyTrunc a m ≤ pyTrunc b m := by
  unfold pyTrunc
  rw [Int.tdiv_eq_ediv ha hm.le, Int.tdiv_eq_ediv (ha.trans hab) hm.le]
  exact Int.ediv_le_ediv hm hab

/-- Truncating division of nonnegatives is nonnegative. -/
theorem pyTrunc_nonneg {m a : Int} (hm : 0 ≤ m) (ha : 0 ≤ a) :
    0 ≤ pyTrunc a m :=
  Int.tdiv_nonneg ha hm

/-- Progress values stay at most 100 while the numerator is at most `100 * m`. -/
theorem pyTrunc_le_100 {m a : Int} (hm : 0 < m) (ha : 0 ≤ a) (h : a ≤ 100 * m) :
    pyTrunc a m ≤ 100 := by
  unfold pyTrunc
  rw [Int.tdiv_eq_ediv ha hm.le]
  calc a / m ≤ (100 * m) / m := Int.ediv_le_ediv hm h
  _ = 100 := Int.mul_ediv_cancel 100 hm.ne'

/-- The exact terminal value: `int(100 * (m / m)) = 100`. -/
theorem pyTrunc_self {m : Int} (hm : m ≠ 0) : pyTrunc (100 * m) m = 100 :=
  Int.mul_tdiv_cancel 100 hm

/-- With a negative denominator a nonnegative numerator truncates to a
nonpositive value (Python `int()` truncates toward zero). -/
theorem pyTrunc_neg_nonpos {m a : Int} (hm : m < 0) (ha : 0 ≤ a) :
    pyTrunc a m ≤ 0 := by
  unfold pyTrunc
  have h1 : a.tdiv m = -(a.tdiv (-m)) := by
    rw [Int.tdiv_neg, neg_neg]
  rw [h1, neg_nonpos]
  exact Int.tdiv_nonneg ha (by omega)

/-- With a negative denominator, once the numerator reaches `-m` the
truncated quotient is strictly negative. -/
theorem pyTrunc_neg_neg {m a : Int} (hm : m < 0) (ha : -m ≤ a) :
    pyTrunc a m < 0 := by
  unfold pyTrunc
  have h1 : a.tdiv m = -(a.tdiv (-m)) := by
    rw [Int.tdiv_neg, neg_neg]
  have ha0 : 0 ≤ a := by omega
  have h2 : 1 ≤ a.tdiv (-m) := by
    rw [Int.tdiv_eq_ediv ha0 (by omega)]
    rw [Int.le_ediv_iff_mul_le (by omega)]
    omega
  omega

/-- Dropping the head of a non-decreasing list keeps it non-decreasing. -/
theorem nondecreasing_of_cons {v : Int} {l : List Int}
    (h : nondecreasing (v :: l) = true) : nondecreasing l = true := by
  cases l with
  | nil => rfl
  | cons b rest =>
    unfold nondecreasing at h
    split at h
    · exact h
    · exact absurd h (by simp)

/-- Closed form of the files written by the extraction loop: one
`str(i+k).zfill(w) + ".png"` per successful read, in frame order. -/
theorem imagesLoop_fst (w : Nat) (len : Int) :
    ∀ (n i : Nat), (imagesLoop w len n i).1 =
      (List.range n).map fun k => zfill w (toString (i + k)) ++ ".png"
  | 0, _ => by simp [imagesLoop]
  | n + 1, i => by
    rw [List.range_succ_eq_map]
    simp only [imagesLoop, imagesLoop_fst w len n (i + 1), List.map_cons,
      List.map_map, Nat.add_zero]
    refine congrArg (fun l => _ :: l) ?_
    refine List.map_eq_map_iff.mpr fun k _ => ?_
    have h : i + 1 + k = i + Nat.succ k := by omega
    simp [Function.comp, h]

/-- Closed form of the events emitted by the extraction loop. -/
theorem imagesLoop_snd (w : Nat) (len : Int) :
    ∀ (n i : Nat), (imagesLoop w len n i).2 =
      (List.range n).map fun k => Event.progress (pyTrunc (100 * ((i + k : Nat) : Int)) len)
  | 0, _ => by simp [imagesLoop]
  | n + 1, i => by
    rw [List.range_succ_eq_map]
    simp only [imagesLoop, imagesLoop_snd w len n (i + 1), List.map_cons,
      List.map_map, Nat.add_zero]
    refine congrArg (fun l => _ :: l) ?_
    refine List.map_eq_map_iff.mpr fun k _ => ?_
    have h : i + 1 + k = i + Nat.succ k := by omega
    simp [Function.comp, h]

/-- Progress extraction turns a list of progress events into its values. -/
theorem progressValues_map_progress (l : List Int) :
    progressValues (l.map Event.progress) = l := by
  induction l with
  | nil => rfl
  | cons a rest ih => simp [progressValues, List.filterMap_cons] at ih ⊢; exact ih

/-- The extraction loop never emits the terminal event. -/
theorem finished_not_mem_imagesLoop (w : Nat) (len : Int) :
    ∀ (n i : Nat), Event.finished ∉ (imagesLoop w len n i).2
  | 0, _ => by simp [imagesLoop]
  | n + 1, i => by
    simp only [imagesLoop, List.mem_cons, not_or]
    exact ⟨by simp, finished_not_mem_imagesLoop w len n (i + 1)⟩

/-- Extending a non-decreasing list on the left below its head keeps it
non-decreasing. -/
theorem nondecreasing_cons_of_head (v : Int) (l : List Int)
    (h1 : nondecreasing l = true) (h2 : ∀ x, l.head? = some x → v ≤ x) :
    nondecreasing (v :: l) = true := by
  cases l with
  | nil => rfl
  | cons b rest =>
    simp only [nondecreasing]
    rw [if_pos (h2 b rfl)]
    exact h1

/-- Python slice `l[:n]` for a nonnegative bound is a plain `take`. -/
theorem pySliceTo_of_nonneg {α : Type} (l : List α) {n : Int} (h : 0 ≤ n) :
    pySliceTo l n = l.take n.toNat :=
  if_neg (by omega)

/-- Python slice `l[:n]` for a negative bound drops the last `-n` elements. -/
theorem pySliceTo_of_neg {α : Type} (l : List α) {n : Int} (h : n < 0) :
    pySliceTo l n = l.take ((l.length : Int) + n).toNat :=
  if_pos h

/-- Number of frames the encoding loop writes: `repeatframe` copies per
readable image, none for a skipped one. -/
theorem videoLoop_written_length (m : Int) (size : Int × Int) (rf : Int) :
    ∀ (l : List (Option Image)) (i : Nat),
      ((videoLoop m size rf l i).1).length = rf.toNat * readableCount l
  | [], _ => by simp [videoLoop, readableCount]
  | none :: rest, i => by
    simp only [videoLoop, readableCount, List.countP_cons, Option.isSome_none,
      Bool.false_eq_true, if_false]
    exact videoLoop_written_length m size rf rest (i + 1)
  | some im :: rest, i => by
    have ih := videoLoop_written_length m size rf rest (i + 1)
    simp only [videoLoop, readableCount, List.countP_cons, Option.isSome_some,
      if_true, List.length_append, List.length_replicate] at ih ⊢
    rw [ih]
    ring

/-- Every frame written by the encoding loop has the resolved target
dimensions (the stretch-resize at line 100). -/
theorem videoLoop_written_mem (m : Int) (size : Int × Int) (rf : Int) :
    ∀ (l : List (Option Image)) (i : Nat),
      ∀ f ∈ (videoLoop m size rf l i).1, f = size
  | [], _ => by simp [videoLoop]
  | none :: rest, i => videoLoop_written_mem m size rf rest (i + 1)
  | some im :: rest, i => by
    intro f hf
    simp only [videoLoop, List.mem_append] at hf
    rcases hf with hf | hf
    · exact List.eq_of_mem_replicate hf
    · exact videoLoop_written_mem m size rf rest (i + 1) f hf

/-- Closed form of the progress values of the encoding loop: one value per
readable slice position, indexed by the position's 0-based `enumerate`
index (skipped positions emit nothing). -/
theorem videoLoop_progress_eq (m : Int) (size : Int × Int) (rf : Int) :
    ∀ (l : List (Option Image)) (i : Nat),
      progressValues (videoLoop m size rf l i).2 =
        (l.enumFrom i).filterMap fun p =>
          if p.2.isSome then some (pyTrunc (100 * ((p.1 : Int) + 1)) m) else none
  | [], _ => by simp [videoLoop, progressValues]
  | none :: rest, i => by
    simp only [videoLoop, List.enumFrom_cons, List.filterMap_cons,
      Option.isSome_none, Bool.false_eq_true, if_false]
    exact videoLoop_progress_eq m size rf rest (i + 1)
  | some im :: rest, i => by
    have ih := videoLoop_progress_eq m size rf rest (i + 1)
    simp only [videoLoop, List.enumFrom_cons, List.filterMap_cons,
      Option.isSome_some, if_true, progressValues]
    rw [← progressValues, ih]

/-- Counting the emitted values of the closed form: exactly one per
readable image. -/
theorem enumFrom_progress_length (g : Nat → Int) :
    ∀ (l : List (Option Image)) (i : Nat),
      ((l.enumFrom i).filterMap fun p =>
          if p.2.isSome then some (g p.1) else none).length = readableCount l
  | [], _ => by simp [readableCount]
  | none :: rest, i => by
    simp only [List.enumFrom_cons, List.filterMap_cons, Option.isSome_none,
      Bool.false_eq_true, if_false, readableCount, List.countP_cons]
    exact enumFrom_progress_length g rest (i + 1)
  | some im :: rest, i => by
    have ih := enumFrom_progress_length g rest (i + 1)
    simp only [List.enumFrom_cons, List.filterMap_cons, Option.isSome_some,
      if_true, readableCount, List.countP_cons, List.length_cons] at ih ⊢
    omega

/-- Monotonicity invariant of the encoding loop: with a positive denominator
any prefix value at most the next emission keeps the sequence
non-decreasing. -/
theorem videoLoop_mono {m : Int} (size : Int × Int) (rf : Int) (hm : 0 < m) :
    ∀ (l : List (Option Image)) (i : Nat) (v : Int),
      v ≤ pyTrunc (100 * ((i : Int) + 1)) m →
      nondecreasing (v :: progressValues (videoLoop m size rf l i).2) = true
  | [], _, _, _ => by simp [videoLoop, progressValues, nondecreasing]
  | none :: rest, i, v, hv => by
    simp only [videoLoop]
    refine videoLoop_mono size rf hm rest (i + 1) v (hv.trans (pyTrunc_mono hm (by positivity) ?_))
    push_cast
    omega
  | some im :: rest, i, v, hv => by
    simp only [videoLoop, progressValues, List.filterMap_cons]
    rw [← progressValues]
    simp only [nondecreasing]
    rw [if_pos hv]
    refine videoLoop_mono size rf hm rest (i + 1) _ (pyTrunc_mono hm (by positivity) ?_)
    push_cast
    omega

/-- Range invariant of the encoding loop: while positions stay within the
denominator, every emitted value lies in `[0, 100]`. -/
theorem videoLoop_bounds {m : Int} (size : Int × Int) (rf : Int) (hm : 0 < m) :
    ∀ (l : List (Option Image)) (i : Nat), (i : Int) + l.length ≤ m →
      ∀ v ∈ progressValues (videoLoop m size rf l i).2, 0 ≤ v ∧ v ≤ 100
  | [], _, _, _, hv => by simp [videoLoop, progressValues] at hv
  | none :: rest, i, hle, v, hv => by
    simp only [videoLoop] at hv
    refine videoLoop_bounds size rf hm rest (i + 1) ?_ v hv
    simp only [List.length_cons] at hle
    push_cast at hle ⊢
    omega
  | some im :: rest, i, hle, v, hv => by
    simp only [videoLoop, progressValues, List.filterMap_cons] at hv
    rw [← progressValues] at hv
    simp only [List.length_cons] at hle
    push_cast at hle
    rcases List.mem_cons.mp hv with h | h
    · subst h
      refine ⟨pyTrunc_nonneg hm.le (by positivity), pyTrunc_le_100 hm (by positivity) ?_⟩
      nlinarith
    · refine videoLoop_bounds size rf hm rest (i + 1) ?_ v h
      push_cast
      omega

/-- Last emitted value of the encoding loop: when the last consumed image
is readable, it is the emission of the final position. -/
theorem videoLoop_last (m : Int) (size : Int × Int) (rf : Int) :
    ∀ (l : List (Option Image)) (i : Nat) (im : Image),
      l.getLast? = some (some im) →
      (progressValues (videoLoop m size rf l i).2).getLast? =
        some (pyTrunc (100 * ((i : Int) + l.length)) m)
  | [], _, _, h => by simp at h
  | [x], i, im, h => by
    simp only [List.getLast?_singleton, Option.some.injEq] at h
    subst h
    simp [videoLoop, progressValues, List.filterMap_cons]
  | x :: y :: t, i, im, h => by
    rw [List.getLast?_cons_cons] at h
    have ih := videoLoop_last m size rf (y :: t) (i + 1) im h
    have hlen : ((i + 1 : Nat) : Int) + (y :: t).length = (i : Int) + (x :: y :: t).length := by
      simp only [List.length_cons]
      push_cast
      ring
    cases x with
    | none =>
      simp only [videoLoop]
      rw [ih, hlen]
    | some im' =>
      simp only [videoLoop, progressValues, List.filterMap_cons]
      rw [← progressValues]
      have hne : progressValues (videoLoop m size rf (y :: t) (i + 1)).2 ≠ [] := by
        intro hemp
        rw [hemp] at ih
        simp at ih
      obtain ⟨c, cs, hcs⟩ := List.exists_cons_of_ne_nil hne
      rw [hcs, List.getLast?_cons_cons, ← hcs, ih, hlen]

/-- Existential shape of any emitted encoding progress value. -/
theorem videoLoop_val_mem (m : Int) (size : Int × Int) (rf : Int) :
    ∀ (l : List (Option Image)) (i : Nat) (v : Int),
      v ∈ progressValues (videoLoop m size rf l i).2 →
      ∃ j : Nat, v = pyTrunc (100 * ((j : Int) + 1)) m
  | [], _, _, hv => by simp [videoLoop, progressValues] at hv
  | none :: rest, i, v, hv => videoLoop_val_mem m size rf rest (i + 1) v hv
  | some im :: rest, i, v, hv => by
    simp only [videoLoop, progressValues, List.filterMap_cons] at hv
    rw [← progressValues] at hv
    rcases List.mem_cons.mp hv with h | h
    · exact ⟨i, h⟩
    · exact videoLoop_val_mem m size rf rest (i + 1) v h

/-- The encoding loop never emits the terminal event. -/
theorem finished_not_mem_videoLoop (m : Int) (size : Int × Int) (rf : Int) :
    ∀ (l : List (Option Image)) (i : Nat),
      Event.finished ∉ (videoLoop m size rf l i).2
  | [], _ => by simp [videoLoop]
  | none :: rest, i => finished_not_mem_videoLoop m size rf rest (i + 1)
  | some im :: rest, i => by
    simp only [videoLoop, List.mem_cons, not_or]
    exact ⟨by simp, finished_not_mem_videoLoop m size rf rest (i + 1)⟩

/-- Progress values of the extraction loop in closed form. -/
theorem imagesLoop_progress (w : Nat) (len : Int) (n i : Nat) :
    progressValues (imagesLoop w len n i).2 =
      (List.range n).map fun k => pyTrunc (100 * ((i + k : Nat) : Int)) len := by
  rw [imagesLoop_snd]
  rw [show ((List.range n).map fun k =>
        Event.progress (pyTrunc (100 * ((i + k : Nat) : Int)) len)) =
      ((List.range n).map fun k => pyTrunc (100 * ((i + k : Nat) : Int)) len).map
        Event.progress from by rw [List.map_map]; rfl]
  exact progressValues_map_progress _

/-- Mapping a monotone function over `range n` yields a non-decreasing list. -/
theorem nondecreasing_map_range :
    ∀ (n : Nat) (f : Nat → Int), (∀ a b, a ≤ b → f a ≤ f b) →
      nondecreasing ((List.range n).map f) = true
  | 0, _, _ => rfl
  | n + 1, f, hf => by
    rw [List.range_succ_eq_map, List.map_cons, List.map_map]
    refine nondecreasing_cons_of_head _ _
      (nondecreasing_map_range n (f ∘ Nat.succ) fun a b h => hf _ _ (by omega)) ?_
    intro x hx
    cases n with
    | zero => simp at hx
    | succ m =>
      rw [List.range_succ_eq_map, List.map_cons] at hx
      simp only [List.head?_cons, Option.some.injEq] at hx
      subst hx
      exact hf 0 1 (by omega)

/-- Last element of a map over a nonempty range. -/
theorem getLast?_map_range {α : Type} (f : Nat → α) (M : Nat) :
    ((List.range (M + 1)).map f).getLast? = some (f M) := by
  rw [List.range_succ, List.map_append]
  simp [List.getLast?_concat]

/-! ## Claims -/

/-- C2: for every valid video source reporting `N > 0` frames and a nonzero
frame rate that yields exactly `N` readable frames, the decoder produces
exactly `N` output files named by the 1-based frame index zero-padded to
width `len(str(N))` with extension `.png`, in frame order, and the final
emitted progress value equals 100. -/
theorem C2_decoder_output (N : Nat) (fps : ℚ) (hN : 0 < N) (hfps : fps ≠ 0) :
    (Worker.images (N : Int) fps N).files =
      ((List.range N).map fun k => zfill (toString N).length (toString (k + 1)) ++ ".png") ∧
    (progressValues (Worker.images (N : Int) fps N).events).getLast? = some 100 ∧
    (Worker.images (N : Int) fps N).error = none := by
  have hcond : ¬((N : Int) = 0 ∨ fps = 0) := by
    push_neg
    refine ⟨?_, hfps⟩
    exact_mod_cast hN.ne'
  refine ⟨?_, ?_, ?_⟩
  · simp only [Worker.images, if_neg hcond]
    rw [imagesLoop_fst]
    refine List.map_eq_map_iff.mpr fun k _ => ?_
    have h1 : 1 + k = k + 1 := by omega
    have h2 : toString ((N : Nat) : Int) = toString N := rfl
    rw [h1, h2]
  · simp only [Worker.images, if_neg hcond]
    rw [progressValues_tail]
    obtain ⟨M, rfl⟩ : ∃ M, N = M + 1 := ⟨N - 1, by omega⟩
    rw [imagesLoop_progress, getLast?_map_range]
    have h3 : ((1 + M : Nat) : Int) = ((M + 1 : Nat) : Int) := by push_cast; ring
    rw [h3]
    exact congrArg some (pyTrunc_self (by exact_mod_cast (Nat.succ_ne_zero M)))
  · simp only [Worker.images, if_neg hcond]

/-- Witness for C2 at `N = 3`, `fps = 30`. -/
theorem C2_decoder_output_witness :
    (Worker.images ((3 : Nat) : Int) 30 3).files =
      ((List.range 3).map fun k => zfill (toString (3 : Nat)).length (toString (k + 1)) ++ ".png") ∧
    (progressValues (Worker.images ((3 : Nat) : Int) 30 3).events).getLast? = some 100 ∧
    (Worker.images ((3 : Nat) : Int) 30 3).error = none :=
  C2_decoder_output 3 30 (by norm_num) (by norm_num)

/-- C7: a decode source reporting 0 frames or a 0 frame rate aborts with
the invalid-source error before the folder-creation step, and the terminal
event is the only notification. -/
theorem C7_invalid_source (length : Int) (fps : ℚ) (numFrames : Nat)
    (h : length = 0 ∨ fps = 0) :
    (Worker.images length fps numFrames).error = some "Invalid video file." ∧
    (Worker.images length fps numFrames).dirCreated = false ∧
    (Worker.images length fps numFrames).events = [Event.finished] := by
  simp [Worker.images, if_pos h]

/-- Witness for C7 at a source reporting 0 frames. -/
theorem C7_invalid_source_witness :
    (Worker.images 0 30 5).error = some "Invalid video file." ∧
    (Worker.images 0 30 5).dirCreated = false ∧
    (Worker.images 0 30 5).events = [Event.finished] :=
  C7_invalid_source 0 30 5 (Or.inl rfl)

/-- C6: for every job, decode or encode, the terminal event is emitted
exactly once and is the last notification of the trace. -/
theorem C6_terminal_once :
    (∀ (length : Int) (fps : ℚ) (numFrames : Nat),
      (Worker.images length fps numFrames).events.count Event.finished = 1 ∧
      (Worker.images length fps numFrames).events.getLast? = some Event.finished) ∧
    (∀ (imgs : List (Option Image)) (cfg : Config),
      (Worker.video imgs cfg).events.count Event.finished = 1 ∧
      (Worker.video imgs cfg).events.getLast? = some Event.finished) := by
  constructor
  · intro length fps numFrames
    by_cases h : length = 0 ∨ fps = 0
    · simp [Worker.images, if_pos h]
    · simp only [Worker.images, if_neg h]
      constructor
      · rw [List.count_append,
          List.count_eq_zero.mpr (finished_not_mem_imagesLoop _ _ _ _)]
        rfl
      · rw [List.getLast?_append]
        rfl
  · intro imgs cfg
    cases hr : resolveSize imgs cfg with
    | error e => simp [Worker.video, hr]
    | ok size =>
      simp only [Worker.video, hr]
      constructor
      · rw [List.count_append,
          List.count_eq_zero.mpr (finished_not_mem_videoLoop _ _ _ _ _)]
        rfl
      · rw [List.getLast?_append]
        rfl

/-- C4 counterexample: a decode job whose source reports 0 frames raises
before `cap.release()` is reached, so the capture handle is never released
on that exit path, yet the terminal event still fires. -/
theorem C4_counterexample :
    Event.released ∉ (Worker.images 0 30 5).events ∧
    (Worker.images 0 30 5).events.getLast? = some Event.finished := by
  decide

/-- C4 (amended): on runs that complete without an exception, the media
handle is released immediately before the terminal event; on exception
paths the handle is not released although the terminal event still fires. -/
theorem C4_amended_release_on_success :
    (∀ (length : Int) (fps : ℚ) (numFrames : Nat),
      (Worker.images length fps numFrames).error = none →
      ∃ es, (Worker.images length fps numFrames).events =
        es ++ [Event.released, Event.finished]) ∧
    (∀ (imgs : List (Option Image)) (cfg : Config),
      (Worker.video imgs cfg).error = none →
      ∃ es, (Worker.video imgs cfg).events =
        es ++ [Event.released, Event.finished]) := by
  constructor
  · intro length fps numFrames herr
    by_cases h : length = 0 ∨ fps = 0
    · simp [Worker.images, if_pos h] at herr
    · exact ⟨(imagesLoop (toString length).length length numFrames 1).2,
        by simp only [Worker.images, if_neg h]⟩
  · intro imgs cfg herr
    cases hr : resolveSize imgs cfg with
    | error e => simp [Worker.video, hr] at herr
    | ok size =>
      exact ⟨(videoLoop (encMaxLength imgs cfg) size cfg.repeatframe
          (pySliceTo imgs (encMaxLength imgs cfg)) 0).2,
        by simp only [Worker.video, hr]⟩

/-- Witness for the amended C4 on concrete successful runs of both modes. -/
theorem C4_amended_release_on_success_witness :
    (∃ es, (Worker.images 2 30 2).events = es ++ [Event.released, Event.finished]) ∧
    (∃ es, (Worker.video [some ⟨1, 1⟩] ⟨0, (1, 1), 1, 30⟩).events =
      es ++ [Event.released, Event.finished]) :=
  ⟨C4_amended_release_on_success.1 2 30 2 (by decide),
   C4_amended_release_on_success.2 [some ⟨1, 1⟩] ⟨0, (1, 1), 1, 30⟩ (by decide)⟩

/-- C8: a configuration update whose field parsing fails anywhere is
rejected atomically: the previous configuration stays in effect in all of
its fields. -/
theorem C8_config_atomic (cfg : Config) (mlT s1T s2T rfT fpsT : String)
    (h : pyInt? mlT = none ∨ pyInt? s1T = none ∨ pyInt? s2T = none ∨
      pyInt? rfT = none ∨ pyFloat? fpsT = none) :
    update_config cfg mlT s1T s2T rfT fpsT = cfg := by
  unfold update_config
  cases h1 : pyInt? mlT <;> cases h2 : pyInt? s1T <;> cases h3 : pyInt? s2T <;>
    cases h4 : pyInt? rfT <;> cases h5 : pyFloat? fpsT <;> simp_all

/-- Witness for C8: a non-numeric `max_length` text leaves the previous
configuration untouched. -/
theorem C8_config_atomic_witness :
    update_config ⟨0, (0, 0), 1, 30⟩ "abc" "1" "1" "1" "30" = ⟨0, (0, 0), 1, 30⟩ :=
  C8_config_atomic ⟨0, (0, 0), 1, 30⟩ "abc" "1" "1" "1" "30" (Or.inl (by decide))

/-- C1 counterexample: with `max_length = 5` over a 2-image list, the loop
consumes `min(5, 2) = 2` images and writes `2 * repeatframe` frames as the
claim states, but the progress denominator is the raw configured value, so
the final progress value is 40, not 100. -/
theorem C1_counterexample :
    (Worker.video [some ⟨2, 2⟩, some ⟨2, 2⟩] ⟨5, (1, 1), 1, 30⟩).written.length = 2 ∧
    (progressValues
      (Worker.video [some ⟨2, 2⟩, some ⟨2, 2⟩] ⟨5, (1, 1), 1, 30⟩).events).getLast? = some 40 ∧
    ¬ (progressValues
      (Worker.video [some ⟨2, 2⟩, some ⟨2, 2⟩] ⟨5, (1, 1), 1, 30⟩).events).getLast? = some 100 := by
  decide

/-- C1 (amended): for every encode job with nonnegative configured
max_length whose size resolution succeeds, the loop consumes
`maxFrames = min(configured-or-listLength, listLength)` images, writes
`maxFrames * repeatFrame` frames minus `repeatFrame` per skipped
unreadable image, and emits a non-decreasing progress sequence; the final
progress value is 100 in the cases where additionally the resolved
denominator does not exceed the list length and the last consumed image
is readable (otherwise it is `trunc(100 * lastEmittedPosition /
denominator)`, which can be below 100). -/
theorem C1_amended_encoder_output (imgs : List (Option Image)) (cfg : Config)
    (sz : Int × Int)
    (h0 : 0 ≤ cfg.max_length)
    (hsz : resolveSize imgs cfg = Except.ok sz) :
    (pySliceTo imgs (encMaxLength imgs cfg)).length =
      min (encMaxLength imgs cfg).toNat imgs.length ∧
    (Worker.video imgs cfg).written.length +
        cfg.repeatframe.toNat *
          ((pySliceTo imgs (encMaxLength imgs cfg)).length -
            readableCount (pySliceTo imgs (encMaxLength imgs cfg))) =
      cfg.repeatframe.toNat * (pySliceTo imgs (encMaxLength imgs cfg)).length ∧
    nondecreasing (progressValues (Worker.video imgs cfg).events) = true ∧
    (encMaxLength imgs cfg ≤ (imgs.length : Int) →
      (∃ im, (pySliceTo imgs (encMaxLength imgs cfg)).getLast? = some (some im)) →
      (progressValues (Worker.video imgs cfg).events).getLast? = some 100) := by
  have hm0 : 0 ≤ encMaxLength imgs cfg := by
    unfold encMaxLength
    split <;> omega
  have hslice : pySliceTo imgs (encMaxLength imgs cfg) =
      imgs.take (encMaxLength imgs cfg).toNat := pySliceTo_of_nonneg imgs hm0
  have hlen : (pySliceTo imgs (encMaxLength imgs cfg)).length =
      min (encMaxLength imgs cfg).toNat imgs.length := by
    rw [hslice, List.length_take]
  have hpv : progressValues (Worker.video imgs cfg).events =
      progressValues (videoLoop (encMaxLength imgs cfg) sz cfg.repeatframe
        (pySliceTo imgs (encMaxLength imgs cfg)) 0).2 := by
    simp only [Worker.video, hsz]
    exact progressValues_tail _
  refine ⟨hlen, ?_, ?_, ?_⟩
  · simp only [Worker.video, hsz]
    rw [videoLoop_written_length]
    have hrc : readableCount (pySliceTo imgs (encMaxLength imgs cfg)) ≤
        (pySliceTo imgs (encMaxLength imgs cfg)).length := List.countP_le_length _
    rw [← Nat.mul_add, Nat.add_sub_cancel' hrc]
  · rcases eq_or_lt_of_le hm0 with hm | hm
    · have hsl : pySliceTo imgs (encMaxLength imgs cfg) = [] := by
        rw [hslice, ← hm]
        simp
      rw [hpv, hsl]
      simp [videoLoop, progressValues, nondecreasing]
    · rw [hpv]
      exact nondecreasing_of_cons (videoLoop_mono sz cfg.repeatframe hm _ 0 _ le_rfl)
  · intro hle hlast
    obtain ⟨im, him⟩ := hlast
    have hne : pySliceTo imgs (encMaxLength imgs cfg) ≠ [] := by
      intro hemp
      rw [hemp] at him
      simp at him
    have hpos : 0 < encMaxLength imgs cfg := by
      have h1 : 0 < (pySliceTo imgs (encMaxLength imgs cfg)).length :=
        List.length_pos.mpr hne
      rw [hlen] at h1
      omega
    have hfull : (pySliceTo imgs (encMaxLength imgs cfg)).length =
        (encMaxLength imgs cfg).toNat := by
      rw [hlen]
      omega
    rw [hpv, videoLoop_last _ _ _ _ 0 im him, hfull]
    have h4 : (((0 : Nat) : Int) + ((encMaxLength imgs cfg).toNat : Int)) =
        encMaxLength imgs cfg := by
      rw [Int.toNat_of_nonneg hm0]
      simp
    rw [h4]
    exact congrArg some (pyTrunc_self hpos.ne')

/-- Witness for the amended C1: 2 images, `max_length = 2`, final progress
100 and non-decreasing emissions. -/
theorem C1_amended_encoder_output_witness :
    nondecreasing (progressValues
      (Worker.video [some ⟨1, 1⟩, some ⟨1, 1⟩] ⟨2, (4, 3), 1, 30⟩).events) = true ∧
    (progressValues
      (Worker.video [some ⟨1, 1⟩, some ⟨1, 1⟩] ⟨2, (4, 3), 1, 30⟩).events).getLast? = some 100 :=
  ⟨(C1_amended_encoder_output [some ⟨1, 1⟩, some ⟨1, 1⟩] ⟨2, (4, 3), 1, 30⟩ (4, 3)
      (by decide) rfl).2.2.1,
   (C1_amended_encoder_output [some ⟨1, 1⟩, some ⟨1, 1⟩] ⟨2, (4, 3), 1, 30⟩ (4, 3)
      (by decide) rfl).2.2.2 (by decide) ⟨⟨1, 1⟩, by decide⟩⟩

/-- C3 counterexample: with 2 consumed source positions of which the first
is unreadable, only one progress event is emitted — the `continue` at
line 99 skips the emission for the unreadable position, so the number of
progress events does not equal the number of consumed positions. -/
theorem C3_counterexample :
    (pySliceTo ([none, some ⟨1, 1⟩] : List (Option Image))
      (encMaxLength [none, some ⟨1, 1⟩] ⟨0, (1, 1), 1, 30⟩)).length = 2 ∧
    (progressValues
      (Worker.video [none, some ⟨1, 1⟩] ⟨0, (1, 1), 1, 30⟩).events).length = 1 := by
  decide

/-- C3 (amended): a progress event is emitted only after each readable
consumed image, with value `trunc(100 * (idx + 1) / max_length)` where
`idx` is the 0-based position in the consumed slice (so skipped positions
still advance the numerator of later emissions but emit nothing), and the
number of progress events equals the number of readable images consumed. -/
theorem C3_amended_progress_on_readable (imgs : List (Option Image)) (cfg : Config)
    (sz : Int × Int) (hsz : resolveSize imgs cfg = Except.ok sz) :
    progressValues (Worker.video imgs cfg).events =
      ((pySliceTo imgs (encMaxLength imgs cfg)).enumFrom 0).filterMap
        (fun p => if p.2.isSome then
            some (pyTrunc (100 * ((p.1 : Int) + 1)) (encMaxLength imgs cfg))
          else none) ∧
    (progressValues (Worker.video imgs cfg).events).length =
      readableCount (pySliceTo imgs (encMaxLength imgs cfg)) := by
  have h1 : progressValues (Worker.video imgs cfg).events =
      ((pySliceTo imgs (encMaxLength imgs cfg)).enumFrom 0).filterMap
        (fun p => if p.2.isSome then
            some (pyTrunc (100 * ((p.1 : Int) + 1)) (encMaxLength imgs cfg))
          else none) := by
    simp only [Worker.video, hsz]
    rw [progressValues_tail, videoLoop_progress_eq]
  refine ⟨h1, ?_⟩
  rw [h1]
  exact enumFrom_progress_length
    (fun k => pyTrunc (100 * ((k : Int) + 1)) (encMaxLength imgs cfg))
    (pySliceTo imgs (encMaxLength imgs cfg)) 0

/-- Witness for the amended C3: one readable image among two consumed
positions yields exactly one progress event. -/
theorem C3_amended_progress_on_readable_witness :
    (progressValues
      (Worker.video [some ⟨1, 1⟩, none] ⟨0, (2, 2), 1, 30⟩).events).length =
      readableCount (pySliceTo ([some ⟨1, 1⟩, none] : List (Option Image))
        (encMaxLength [some ⟨1, 1⟩, none] ⟨0, (2, 2), 1, 30⟩)) :=
  (C3_amended_progress_on_readable [some ⟨1, 1⟩, none] ⟨0, (2, 2), 1, 30⟩ (2, 2)
    rfl).2

/-- C5 counterexample: an encode job with configured `max_length = -1` over
three readable images emits the progress sequence `[-100, -200]`, which is
decreasing and outside the 0–100 range; and a decode job whose source
reports 2 frames but yields 3 readable frames emits `[50, 100, 150]`,
whose last value exceeds 100. -/
theorem C5_counterexample :
    progressValues
      (Worker.video [some ⟨1, 1⟩, some ⟨1, 1⟩, some ⟨1, 1⟩] ⟨-1, (1, 1), 1, 30⟩).events =
      [-100, -200] ∧
    nondecreasing [-100, -200] = false ∧ ((-100 : Int) < 0) ∧
    progressValues (Worker.images 2 30 3).events = [50, 100, 150] ∧
    ¬ ((150 : Int) ≤ 100) := by
  decide

/-- C5 (amended): within a decode job whose source reports a positive frame
count and yields at most that many frames, and within an encode job whose
configured max_length is nonnegative, the emitted progress sequence is
non-decreasing and every value lies in 0..100; both restrictions are
needed, per the counterexample runs. -/
theorem C5_amended_progress_range :
    (∀ (length : Int) (fps : ℚ) (numFrames : Nat), 0 < length →
      (numFrames : Int) ≤ length →
      nondecreasing (progressValues (Worker.images length fps numFrames).events) = true ∧
      ∀ v ∈ progressValues (Worker.images length fps numFrames).events,
        0 ≤ v ∧ v ≤ 100) ∧
    (∀ (imgs : List (Option Image)) (cfg : Config), 0 ≤ cfg.max_length →
      nondecreasing (progressValues (Worker.video imgs cfg).events) = true ∧
      ∀ v ∈ progressValues (Worker.video imgs cfg).events,
        0 ≤ v ∧ v ≤ 100) := by
  constructor
  · intro length fps numFrames hlen hcap
    by_cases h : length = 0 ∨ fps = 0
    · simp [Worker.images, if_pos h, progressValues, nondecreasing]
    · have hpv : progressValues (Worker.images length fps numFrames).events =
          (List.range numFrames).map
            fun k => pyTrunc (100 * ((1 + k : Nat) : Int)) length := by
        simp only [Worker.images, if_neg h]
        rw [progressValues_tail, imagesLoop_progress]
      rw [hpv]
      constructor
      · refine nondecreasing_map_range numFrames _ fun a b hab => ?_
        refine pyTrunc_mono hlen (by positivity) ?_
        push_cast
        omega
      · intro v hv
        simp only [List.mem_map, List.mem_range] at hv
        obtain ⟨k, hk, rfl⟩ := hv
        refine ⟨pyTrunc_nonneg hlen.le (by positivity), ?_⟩
        refine pyTrunc_le_100 hlen (by positivity) ?_
        have : ((1 + k : Nat) : Int) ≤ length := by
          push_cast
          omega
        nlinarith
  · intro imgs cfg h0
    have hm0 : 0 ≤ encMaxLength imgs cfg := by
      unfold encMaxLength
      split <;> omega
    cases hr : resolveSize imgs cfg with
    | error e =>
      simp [Worker.video, hr, progressValues, nondecreasing]
    | ok size =>
      have hpv : progressValues (Worker.video imgs cfg).events =
          progressValues (videoLoop (encMaxLength imgs cfg) size cfg.repeatframe
            (pySliceTo imgs (encMaxLength imgs cfg)) 0).2 := by
        simp only [Worker.video, hr]
        exact progressValues_tail _
      rcases eq_or_lt_of_le hm0 with hm | hm
      · have hsl : pySliceTo imgs (encMaxLength imgs cfg) = [] := by
          rw [pySliceTo_of_nonneg imgs hm0, ← hm]
          simp
        rw [hpv, hsl]
        simp [videoLoop, progressValues, nondecreasing]
      · have hlen : ((pySliceTo imgs (encMaxLength imgs cfg)).length : Int) ≤
            encMaxLength imgs cfg := by
          rw [pySliceTo_of_nonneg imgs hm0, List.length_take]
          have h1 : min (encMaxLength imgs cfg).toNat imgs.length ≤
              (encMaxLength imgs cfg).toNat := Nat.min_le_left _ _
          omega
        rw [hpv]
        constructor
        · exact nondecreasing_of_cons
            (videoLoop_mono size cfg.repeatframe hm _ 0 _ le_rfl)
        · intro v hv
          refine videoLoop_bounds size cfg.repeatframe hm _ 0 ?_ v hv
          push_cast
          omega

/-- Witness for the amended C5 on concrete runs of both modes. -/
theorem C5_amended_progress_range_witness :
    nondecreasing (progressValues (Worker.images 3 30 3).events) = true ∧
    nondecreasing (progressValues
      (Worker.video [some ⟨1, 1⟩, some ⟨1, 1⟩] ⟨0, (1, 1), 1, 30⟩).events) = true :=
  ⟨(C5_amended_progress_range.1 3 30 3 (by decide) (by decide)).1,
   (C5_amended_progress_range.2 [some ⟨1, 1⟩, some ⟨1, 1⟩] ⟨0, (1, 1), 1, 30⟩
      (by decide)).1⟩

/-- C9: encoding with configured size `(0, 0)` infers the target size from
the first listed image — the writer is created with the first image's
`(width, height)` and every written frame is stretch-resized to exactly
those dimensions; if the first image is unreadable the job aborts with a
fatal error before anything is written, with no fallback to later images. -/
theorem C9_autosize (imgs : List (Option Image)) (cfg : Config)
    (hsz : cfg.size = (0, 0)) :
    (∀ im : Image, imgs.head? = some (some im) →
      (Worker.video imgs cfg).writerSize = some ((im.width : Int), (im.height : Int)) ∧
      (∀ f ∈ (Worker.video imgs cfg).written, f = ((im.width : Int), (im.height : Int))) ∧
      (Worker.video imgs cfg).error = none) ∧
    (imgs.head? = some none →
      (Worker.video imgs cfg).error.isSome = true ∧
      (Worker.video imgs cfg).written = [] ∧
      (Worker.video imgs cfg).writerSize = none) := by
  constructor
  · intro im him
    have hr : resolveSize imgs cfg =
        Except.ok ((im.width : Int), (im.height : Int)) := by
      unfold resolveSize
      rw [if_pos hsz, him]
    refine ⟨by simp only [Worker.video, hr], ?_, by simp only [Worker.video, hr]⟩
    intro f hf
    simp only [Worker.video, hr] at hf
    exact videoLoop_written_mem _ _ _ _ _ f hf
  · intro him
    have hr : resolveSize imgs cfg =
        Except.error "AttributeError: NoneType object has no attribute shape" := by
      unfold resolveSize
      rw [if_pos hsz, him]
    simp [Worker.video, hr]

/-- Witness for C9: a readable 3×2 first image fixes the writer size, and
an unreadable first image aborts before any frame is written. -/
theorem C9_autosize_witness :
    (Worker.video [some ⟨3, 2⟩] ⟨0, (0, 0), 1, 30⟩).writerSize = some (3, 2) ∧
    (Worker.video [(none : Option Image)] ⟨0, (0, 0), 1, 30⟩).written = [] :=
  ⟨((C9_autosize [some ⟨3, 2⟩] ⟨0, (0, 0), 1, 30⟩ rfl).1 ⟨3, 2⟩ rfl).1,
   ((C9_autosize [none] ⟨0, (0, 0), 1, 30⟩ rfl).2 rfl).2.1⟩

/-- C10 counterexample: with `max_length = -101` over 102 readable images
the loop consumes the single first image, but the emitted progress value
is `int(100 * 1 / -101) = 0` (truncation toward zero), which is not
negative. -/
theorem C10_counterexample :
    progressValues
      (Worker.video (List.replicate 102 (some ⟨1, 1⟩)) ⟨-101, (1, 1), 1, 30⟩).events = [0] ∧
    ¬ ((0 : Int) < 0) := by
  decide

/-- C10 (amended): for a negative configured max_length `m` with
`L + m > 0`, the encoder consumes exactly the first `L + m` images
(Python negative-slice semantics) and every emitted progress value is
nonpositive; the values are strictly negative whenever `-m ≤ 100`
(for larger `-m`, early emissions truncate toward zero to 0). -/
theorem C10_amended_negative_cap (imgs : List (Option Image)) (cfg : Config)
    (hm : cfg.max_length < 0)
    (hL : 0 < (imgs.length : Int) + cfg.max_length) :
    pySliceTo imgs (encMaxLength imgs cfg) =
      imgs.take ((imgs.length : Int) + cfg.max_length).toNat ∧
    (pySliceTo imgs (encMaxLength imgs cfg)).length =
      ((imgs.length : Int) + cfg.max_length).toNat ∧
    (∀ v ∈ progressValues (Worker.video imgs cfg).events, v ≤ 0) ∧
    (-cfg.max_length ≤ 100 →
      ∀ v ∈ progressValues (Worker.video imgs cfg).events, v < 0) := by
  have hmeq : encMaxLength imgs cfg = cfg.max_length := by
    unfold encMaxLength
    rw [if_neg (by omega)]
  have hslice : pySliceTo imgs (encMaxLength imgs cfg) =
      imgs.take ((imgs.length : Int) + cfg.max_length).toNat := by
    rw [hmeq]
    exact pySliceTo_of_neg imgs hm
  have hval : ∀ v ∈ progressValues (Worker.video imgs cfg).events,
      ∃ j : Nat, v = pyTrunc (100 * ((j : Int) + 1)) cfg.max_length := by
    intro v hv
    cases hr : resolveSize imgs cfg with
    | error e =>
      simp [Worker.video, hr, progressValues] at hv
    | ok size =>
      simp only [Worker.video, hr] at hv
      rw [progressValues_tail, hmeq] at hv
      exact videoLoop_val_mem _ _ _ _ _ v hv
  refine ⟨hslice, ?_, ?_, ?_⟩
  · rw [hslice, List.length_take]
    omega
  · intro v hv
    obtain ⟨j, rfl⟩ := hval v hv
    exact pyTrunc_neg_nonpos hm (by positivity)
  · intro h100 v hv
    obtain ⟨j, rfl⟩ := hval v hv
    refine pyTrunc_neg_neg hm ?_
    have hj : (0 : Int) ≤ (j : Int) := Int.natCast_nonneg j
    nlinarith

/-- Witness for the amended C10: `max_length = -1` over two readable images
consumes one image and emits only negative progress values. -/
theorem C10_amended_negative_cap_witness :
    (pySliceTo ([some ⟨1, 1⟩, some ⟨1, 1⟩] : List (Option Image))
      (encMaxLength [some ⟨1, 1⟩, some ⟨1, 1⟩] ⟨-1, (1, 1), 1, 30⟩)).length = 1 ∧
    ∀ v ∈ progressValues
      (Worker.video [some ⟨1, 1⟩, some ⟨1, 1⟩] ⟨-1, (1, 1), 1, 30⟩).events, v < 0 :=
  ⟨(C10_amended_negative_cap [some ⟨1, 1⟩, some ⟨1, 1⟩] ⟨-1, (1, 1), 1, 30⟩
      (by decide) (by decide)).2.1,
   (C10_amended_negative_cap [some ⟨1, 1⟩, some ⟨1, 1⟩] ⟨-1, (1, 1), 1, 30⟩
      (by decide) (by decide)).2.2.2 (by decide)⟩

end VideoConverter
